import Mathlib

/-!
Verification development for the chunk-extraction and incremental-sync core
of a codebase indexing service.

Strings of the implementation language are modelled as `List Char`; the
token counter (an external BPE tokenizer) is an abstract parameter
`tc : Str → Nat`.  Loops are modelled as structurally recursive functions,
fallible external calls as `Option`/`Bool`-valued parameters.
-/

set_option maxRecDepth 10000

abbrev Str := List Char

/-- Concrete token counter used to instantiate theorems: one token per
character (satisfies all the subadditivity conditions assumed of the
external tokenizer). -/
def charCount (s : Str) : Nat := s.length

/-- The newline separator used by `split('\n')` / `join('\n')`. -/
def nlSep : Str := ['\n']

/-- The space separator used by `join(' ')`. -/
def spSep : Str := [' ']

/-- Sentence-terminator characters of the sentence-splitting regex
`[^.!?]+[.!?]+|[^.!?]+$`. -/
def isTermCh (c : Char) : Bool := c == '.' || c == '!' || c == '?'

/-- Whitespace characters matched by the regex class `\s`. -/
def isWSCh (c : Char) : Bool :=
  c == ' ' || c == '\t' || c == '\n' || c == '\r' || c == '\x0b' || c == '\x0c'

/-- `String.prototype.trim`: strip whitespace from both ends. -/
def trimStr (s : Str) : Str :=
  ((s.dropWhile isWSCh).reverse.dropWhile isWSCh).reverse

/-- `Array.prototype.join(sep)`. -/
def joinSep (sep : Str) : List Str → Str
  | [] => []
  | [x] => x
  | x :: y :: rest => x ++ sep ++ joinSep sep (y :: rest)

/-- Worker for `splitWS`; the fuel bounds the recursion depth, which is at
most the length of the string since every recursive step consumes at least
one whitespace character. -/
def splitWSGo (fuel : Nat) (s : Str) : List Str :=
  match fuel with
  | 0 => []
  | fuel + 1 =>
    let n := s.takeWhile (fun c => !isWSCh c)
    let r := s.dropWhile (fun c => !isWSCh c)
    match r with
    | [] => [n]
    | _ :: _ => n :: splitWSGo fuel (r.dropWhile isWSCh)

/-- `text.split(/\s+/)`: split on maximal whitespace runs; a leading run
yields a leading empty segment and a trailing run a trailing one. -/
def splitWS (s : Str) : List Str := splitWSGo (s.length + 1) s

/-- Worker for `sentScan`; fuel bounds the depth, each step consumes at
least one character. -/
def sentScanGo (fuel : Nat) (s : Str) : List Str :=
  match fuel with
  | 0 => []
  | fuel + 1 =>
    match s.dropWhile isTermCh with
    | [] => []
    | c :: cs =>
      let n := (c :: cs).takeWhile (fun x => !isTermCh x)
      let r := (c :: cs).dropWhile (fun x => !isTermCh x)
      let t := r.takeWhile isTermCh
      (n ++ t) :: sentScanGo fuel (r.dropWhile isTermCh)

/-- Global scan of the regex `[^.!?]+[.!?]+|[^.!?]+$` over a line: skip
unmatchable positions (terminator characters), then each match is a
nonempty run of non-terminators together with the following run of
terminators. -/
def sentScan (s : Str) : List Str := sentScanGo (s.length + 1) s

/-- `line.match(regex) || [line]`: when the scan finds no match (the line
is empty or consists only of terminator characters) fall back to the whole
line. -/
def matchSentences (line : Str) : List Str :=
  match sentScan line with
  | [] => [line]
  | m :: ms => m :: ms

/-- Loop of `TokenCounter.getOverlapLines`, walking the reversed line list:
take lines from the end until the accumulated token count would exceed the
overlap target (the first line is always taken). -/
def golLoop (tc : Str → Nat) (ovT : Nat) : List Str → List Str → Nat → List Str
  | [], acc, _ => acc
  | line :: rest, acc, tokens =>
    let lineT := tc (line ++ nlSep)
    if ovT < tokens + lineT ∧ acc ≠ [] then acc
    else golLoop tc ovT rest (line :: acc) (tokens + lineT)

/-- `TokenCounter.getOverlapLines(lines, overlapTokens)`. -/
def getOverlapLines (tc : Str → Nat) (lines : List Str) (ovT : Nat) : List Str :=
  if ovT = 0 ∨ lines = [] then [] else golLoop tc ovT lines.reverse [] 0

/-- Loop of `TokenCounter.splitByWords` over the word list; state is
(chunks, currentChunk as word list, currentTokens). -/
def sbwLoop (tc : Str → Nat) (maxT : Nat) :
    List Str → List Str → List Str → Nat → List Str
  | [], chunks, cur, _ => if cur = [] then chunks else chunks ++ [joinSep spSep cur]
  | w :: rest, chunks, cur, curT =>
    let wT := tc (w ++ spSep)
    if maxT < curT + wT ∧ cur ≠ [] then
      sbwLoop tc maxT rest (chunks ++ [joinSep spSep cur]) [w] wT
    else
      sbwLoop tc maxT rest chunks (cur ++ [w]) (curT + wT)

/-- `TokenCounter.splitByWords(text, maxTokens)`. -/
def splitByWords (tc : Str → Nat) (text : Str) (maxT : Nat) : List Str :=
  sbwLoop tc maxT (splitWS text) [] [] 0

/-- Loop of `TokenCounter.splitLongLine` over the sentence list; state is
(chunks, currentChunk as string, currentTokens). -/
def sllLoop (tc : Str → Nat) (maxT : Nat) :
    List Str → List Str → Str → Nat → List Str
  | [], chunks, cur, _ => if cur = [] then chunks else chunks ++ [trimStr cur]
  | s :: rest, chunks, cur, curT =>
    let sT := tc s
    if maxT < sT then
      let chunks1 := if cur = [] then chunks else chunks ++ [trimStr cur]
      sllLoop tc maxT rest (chunks1 ++ splitByWords tc s maxT) [] 0
    else if maxT < curT + sT ∧ cur ≠ [] then
      sllLoop tc maxT rest (chunks ++ [trimStr cur]) s sT
    else
      sllLoop tc maxT rest chunks (cur ++ s) (curT + sT)

/-- `TokenCounter.splitLongLine(line, maxTokens)`. -/
def splitLongLine (tc : Str → Nat) (line : Str) (maxT : Nat) : List Str :=
  sllLoop tc maxT (matchSentences line) [] [] 0

/-- Loop of `TokenCounter.splitByTokens` over the line list; state is
(chunks, currentChunk as line list, currentTokens).  The `overlapBuffer`
variable of the source is read only immediately after being written, so it
is inlined. -/
def sbtLoop (tc : Str → Nat) (maxT ovT : Nat) :
    List Str → List Str → List Str → Nat → List Str
  | [], chunks, cur, _ => if cur = [] then chunks else chunks ++ [joinSep nlSep cur]
  | line :: rest, chunks, cur, curT =>
    let lineT := tc (line ++ nlSep)
    if maxT < lineT then
      let chunks1 := if cur = [] then chunks else chunks ++ [joinSep nlSep cur]
      let sc := splitLongLine tc line maxT
      let lastC := sc.getLastD []
      sbtLoop tc maxT ovT rest (chunks1 ++ sc.dropLast) [lastC] (tc lastC)
    else if maxT < curT + lineT ∧ cur ≠ [] then
      let ob := getOverlapLines tc cur ovT
      sbtLoop tc maxT ovT rest (chunks ++ [joinSep nlSep cur])
        (ob ++ [line]) (tc (joinSep nlSep (ob ++ [line])))
    else
      sbtLoop tc maxT ovT rest chunks (cur ++ [line]) (curT + lineT)

/-- `TokenCounter.splitByTokens(text, maxTokens, overlapTokens)`. -/
def splitByTokens (tc : Str → Nat) (text : Str) (maxT ovT : Nat) : List Str :=
  if tc text ≤ maxT then [text]
  else sbtLoop tc maxT ovT (text.splitOn '\n') [] [] 0

/-- Accumulated token count of an overlap buffer, counted the way
`getOverlapLines` counts it (each line with its trailing newline). -/
def overlapSum (tc : Str → Nat) (lines : List Str) : Nat :=
  (lines.map (fun l => tc (l ++ nlSep))).sum

/-- A chunk as in the shared `Chunk` type: content plus file metadata. -/
structure Chunk where
  content : Str
  filePath : String
  startLine : Nat
  endLine : Nat
  chunkType : String
  language : String
  fileHash : String
  isTestFile : Bool
  isLibraryFile : Bool
deriving DecidableEq, Repr

/-- Per-part loop of `TreeSitterParsingService.splitOversizedChunks`:
creates sub-chunks with adjusted line numbers, spreading the original
chunk's metadata, and renaming the chunk type to `<kind>_part_<i+1>` when
there is more than one part (`n` is the total number of parts, `i` the
0-based index of the next part). -/
def splitChunkParts (c : Chunk) (n : Nat) : List Str → Nat → Nat → List Chunk
  | [], _, _ => []
  | t :: rest, curLine, i =>
    let splitLines := (t.splitOn '\n').length
    { c with
      content := t
      startLine := curLine
      endLine := curLine + splitLines - 1
      chunkType := if 1 < n then c.chunkType ++ "_part_" ++ toString (i + 1) else c.chunkType }
      :: splitChunkParts c n rest (curLine + splitLines) (i + 1)

/-- Body of `splitOversizedChunks` for one chunk: keep it unchanged when it
fits the token budget, otherwise split its content and emit the parts. -/
def splitOversizedChunk (tc : Str → Nat) (maxT ovT : Nat) (c : Chunk) : List Chunk :=
  if tc c.content ≤ maxT then [c]
  else
    let ts := splitByTokens tc c.content maxT ovT
    splitChunkParts c ts.length ts c.startLine 0

/-- `TreeSitterParsingService.splitOversizedChunks(chunks)`. -/
def splitOversizedChunks (tc : Str → Nat) (maxT ovT : Nat) (cs : List Chunk) : List Chunk :=
  (cs.map (splitOversizedChunk tc maxT ovT)).flatten

/-- Worker for `batches`; fuel bounds the number of iterations, each of
which consumes at least one element when the batch size is positive. -/
def batchesGo (bs : Nat) : Nat → List α → List (List α)
  | 0, _ => []
  | _, [] => []
  | fuel + 1, a :: rest => (a :: rest).take bs :: batchesGo bs fuel ((a :: rest).drop bs)

/-- Split a list into consecutive batches of size `bs` (the batching loop
`for (let i = 0; i < xs.length; i += bs)` of the source, which requires a
positive batch size to terminate). -/
def batches (bs : Nat) (l : List α) : List (List α) := batchesGo bs l.length l

/-- `calculateFileHashes(filePaths, concurrency)`: hash the files batch by
batch; a failure (`hashFn p = none`) is swallowed and the file omitted
from the result.  The hashing of a single file is the external capability
`hashFn`. -/
def calculateFileHashes (hashFn : String → Option String)
    (filePaths : List String) (concurrency : Nat) : List (String × String) :=
  (batches concurrency filePaths).foldl
    (fun results batch =>
      results ++ batch.filterMap (fun p => (hashFn p).map (fun h => (p, h))))
    []

/-- A file discovered by `FileScannerService.scanDirectory`.
Modelled from the spec: the scanner itself is not part of the source under
verification; per the data model a `ScannedFile` carries both the absolute
path (used to read and hash the file) and the root-relative path. -/
structure ScannedFile where
  path : String
  relativePath : String
  language : Option String
  supported : Bool
deriving DecidableEq, Repr

/-- A stored chunk row as written by `storeChunks` (the fields relevant to
change detection; ids, vectors and timestamps are omitted). -/
structure StoredRow where
  filePath : String
  fileHash : String
  content : String
deriving DecidableEq, Repr

/-- The statistics record returned by `rescanCodebase` (without the
wall-clock duration). -/
structure RescanResult where
  filesScanned : Nat
  filesAdded : Nat
  filesModified : Nat
  filesDeleted : Nat
  filesUnchanged : Nat
  chunksAdded : Nat
  chunksDeleted : Nat
deriving DecidableEq, Repr

/-- Externally observable events of one rescan: progress-callback phases,
the filesystem scan, per-path storage deletes and storage writes. -/
inductive REvent
  | phase (s : String)
  | scan
  | del (p : String)
  | store (n : Nat)
deriving DecidableEq, Repr

/-- Result of `rescanCodebase`: the returned statistics or the message of
the thrown `IngestionError`. -/
inductive RescanOut
  | ok (r : RescanResult)
  | err (msg : String)
deriving DecidableEq, Repr

/-- Outcome of one modelled rescan run: result, final storage state and
the ordered event trace. -/
structure RescanOutcome where
  outcome : RescanOut
  storage : Option (List StoredRow)
  trace : List REvent
deriving DecidableEq, Repr

/-- The external collaborators of the sync engine: per-file hashing
(`none` = the hash promise rejected), per-file parsing into chunk contents
(`none` = parse failure), per-chunk embedding success, and per-path
storage-delete success. -/
structure RescanEnv where
  hashFn : String → Option String
  parseFn : String → Option (List String)
  embedOk : String → Bool
  deleteOk : String → Bool

/-- Phase 1 reduction of stored rows to one fingerprint per path plus a
chunk count (first row of a path fixes the hash; rows with an empty path
are skipped). -/
def buildStoredMap (rows : List StoredRow) : List (String × String × Nat) :=
  rows.foldl
    (fun m row =>
      if row.filePath = "" then m
      else
        match m.find? (fun e => e.1 = row.filePath) with
        | some _ => m.map (fun e => if e.1 = row.filePath then (e.1, e.2.1, e.2.2 + 1) else e)
        | none => m ++ [(row.filePath, row.fileHash, 1)])
    []

/-- `storedFileMap.get(path)`: the stored fingerprint and chunk count. -/
def lookupStored (m : List (String × String × Nat)) (p : String) :
    Option (String × Nat) :=
  (m.find? (fun e => e.1 = p)).map (fun e => e.2)

/-- Accumulator of the phase 3 change-detection loop. -/
structure DetectAcc where
  currentMap : List (String × String)
  added : List ScannedFile
  modified : List ScannedFile
  unchanged : List ScannedFile
deriving DecidableEq, Repr

/-- The classification rule applied by the detection loop to one scanned
file (`none` when the file could not be hashed). -/
inductive FileClass
  | added
  | modified
  | unchanged
deriving DecidableEq, Repr

/-- Classification of one file against the stored map: `added` when no
fingerprint is stored for its relative path, `modified` when the stored
hash differs from the current one, `unchanged` when they agree; `none`
when hashing failed. -/
def classify (hashFn : String → Option String) (storedMap : List (String × String × Nat))
    (f : ScannedFile) : Option FileClass :=
  match hashFn f.path with
  | none => none
  | some h =>
    match lookupStored storedMap f.relativePath with
    | none => some FileClass.added
    | some (sh, _) => if sh ≠ h then some FileClass.modified else some FileClass.unchanged

/-- Phase 3 loop of `rescanCodebase`: hash every supported file, record
its current fingerprint and classify it; files that fail to hash are
skipped. -/
def detectLoop (hashFn : String → Option String)
    (storedMap : List (String × String × Nat)) :
    List ScannedFile → DetectAcc → DetectAcc
  | [], acc => acc
  | f :: rest, acc =>
    match hashFn f.path with
    | none => detectLoop hashFn storedMap rest acc
    | some h =>
      let acc1 := { acc with currentMap := acc.currentMap ++ [(f.relativePath, h)] }
      let acc2 :=
        match lookupStored storedMap f.relativePath with
        | none => { acc1 with added := acc1.added ++ [f] }
        | some (sh, _) =>
          if sh ≠ h then { acc1 with modified := acc1.modified ++ [f] }
          else { acc1 with unchanged := acc1.unchanged ++ [f] }
      detectLoop hashFn storedMap rest acc2

/-- Phase 3 of `rescanCodebase` starting from the empty accumulator. -/
def detectChanges (hashFn : String → Option String)
    (storedMap : List (String × String × Nat)) (files : List ScannedFile) : DetectAcc :=
  detectLoop hashFn storedMap files ⟨[], [], [], []⟩

/-- Deleted-file detection: every stored path that has no entry in the
current file map, in stored-map order. -/
def deletedOf (storedMap : List (String × String × Nat))
    (currentMap : List (String × String)) : List String :=
  (storedMap.filter (fun e => ¬ currentMap.any (fun c => c.1 = e.1))).map (fun e => e.1)

/-- Outcome of the phase 4 deletion loop. -/
structure DeleteOutcome where
  ok : Bool
  storage : List StoredRow
  chunksDeleted : Nat
  events : List REvent
deriving DecidableEq, Repr

/-- Phase 4 of `rescanCodebase`: issue one storage delete per stale path;
the chunk count is accumulated from the stored map before each delete; a
failing delete has no try/catch around it, so it aborts the loop. -/
def runDeletes (deleteOk : String → Bool) (storedMap : List (String × String × Nat)) :
    List String → List StoredRow → Nat → DeleteOutcome
  | [], st, cd => ⟨true, st, cd, []⟩
  | p :: rest, st, cd =>
    let cd1 := cd + (match lookupStored storedMap p with
                     | some e => e.2
                     | none => 0)
    if deleteOk p then
      let o := runDeletes deleteOk storedMap rest (st.filter (fun r => r.filePath ≠ p)) cd1
      ⟨o.ok, o.storage, o.chunksDeleted, REvent.del p :: o.events⟩
    else
      ⟨false, st, cd1, [REvent.del p]⟩

/-- Phase 5 per-file loop of `rescanCodebase`: report progress for every
file, then hash and parse it; chunks keep the `filePath` the parser was
called with (the file's `path`) and are stamped with the file hash.
Files without a language and files that fail to hash or parse are
skipped. -/
def processLoop (env : RescanEnv) : List ScannedFile → List (String × String × String) × List REvent
  | [] => ([], [])
  | f :: rest =>
    let here : List (String × String × String) :=
      match f.language with
      | none => []
      | some _ =>
        match env.hashFn f.path with
        | none => []
        | some h =>
          match env.parseFn f.path with
          | none => []
          | some contents => contents.map (fun c => (c, f.path, h))
    let o := processLoop env rest
    (here ++ o.1, REvent.phase "Processing files" :: o.2)

/-- `generateEmbeddingsBatch`: embed the chunks batch by batch, dropping
chunks whose embedding failed, and report progress after each batch. -/
def embedBatches (embedOk : String → Bool) (bs : Nat)
    (chunks : List (String × String × String)) :
    List (String × String × String) × List REvent :=
  (batches bs chunks).foldr
    (fun b acc => (b.filter (fun c => embedOk c.1) ++ acc.1,
                   REvent.phase "Generating embeddings" :: acc.2))
    ([], [])

/-- Row written by `storeChunks` for one chunk `(content, filePath, fileHash)`. -/
def toStoredRow (c : String × String × String) : StoredRow :=
  ⟨c.2.1, c.2.2, c.1⟩

/-- `storeChunks`: nothing happens for an empty chunk list; otherwise the
rows are added batch by batch with a progress report after each batch. -/
def storeBatches (bs : Nat) (chunks : List (String × String × String))
    (st : List StoredRow) : List StoredRow × List REvent :=
  if chunks = [] then (st, [])
  else
    (batches bs chunks).foldl
      (fun acc b => (acc.1 ++ b.map toStoredRow,
                     acc.2 ++ [REvent.store b.length, REvent.phase "Storing chunks"]))
      (st, [])

/-- `IngestionService.rescanCodebase(codebaseName, codebasePath)`: storage
is the (optional) table of the codebase, `files` the scanner's result for
the codebase path, `bs` the configured batch size.  A missing table throws
before the filesystem scan; all thrown errors are wrapped by the outer
catch into an `IngestionError` whose message is prefixed with
`Failed to rescan codebase <name>: `. -/
def rescanCodebase (env : RescanEnv) (bs : Nat) (name : String)
    (files : List ScannedFile) (storage : Option (List StoredRow)) : RescanOutcome :=
  let t0 : List REvent := [REvent.phase "Retrieving stored hashes"]
  match storage with
  | none =>
    { outcome := RescanOut.err
        ("Failed to rescan codebase " ++ name ++ ": Codebase " ++ name ++ " not found")
      storage := none
      trace := t0 }
  | some rows =>
    let storedMap := buildStoredMap rows
    let supported := files.filter (fun f => f.supported)
    let t2 := t0 ++ [REvent.phase "Scanning filesystem", REvent.scan,
                     REvent.phase "Detecting changes"]
                 ++ supported.map (fun _ => REvent.phase "Detecting changes")
    let d := detectChanges env.hashFn storedMap supported
    let deletedL := deletedOf storedMap d.currentMap
    let fd := d.modified.map (fun f => f.relativePath) ++ deletedL
    let delOut := runDeletes env.deleteOk storedMap fd rows 0
    if delOut.ok then
      let ftp := d.added ++ d.modified
      let p := processLoop env ftp
      let allChunks := p.1
      if allChunks = [] then
        { outcome := RescanOut.ok
            ⟨supported.length, d.added.length, d.modified.length, deletedL.length,
             d.unchanged.length, 0, delOut.chunksDeleted⟩
          storage := some delOut.storage
          trace := t2 ++ delOut.events ++ p.2 }
      else
        let e := embedBatches env.embedOk bs allChunks
        let s := storeBatches bs e.1 delOut.storage
        { outcome := RescanOut.ok
            ⟨supported.length, d.added.length, d.modified.length, deletedL.length,
             d.unchanged.length, allChunks.length, delOut.chunksDeleted⟩
          storage := some s.1
          trace := t2 ++ delOut.events ++ p.2 ++ e.2 ++ s.2 }
    else
      { outcome := RescanOut.err
          ("Failed to rescan codebase " ++ name ++ ": delete failed")
        storage := some delOut.storage
        trace := t2 ++ delOut.events }

/-- The phase string of a trace event, when it is a progress report. -/
def phaseOfEvent : REvent → Option String
  | REvent.phase s => some s
  | _ => none

/-- The progress-callback phases of a rescan trace, in order. -/
def phasesOf (o : RescanOutcome) : List String :=
  o.trace.filterMap phaseOfEvent

/-! ## Concrete instances used to evaluate the model at specific inputs -/

/-- A codebase of one supported file at absolute path `/r/a.ts`
(root-relative path `a.ts`), hashing to `h1` and parsing to one chunk;
every external operation succeeds. -/
def envBug : RescanEnv :=
  { hashFn := fun p => if p = "/r/a.ts" then some "h1" else none
    parseFn := fun p => if p = "/r/a.ts" then some ["ca"] else none
    embedOk := fun _ => true
    deleteOk := fun _ => true }

/-- The scanner's record for the file of `envBug`. -/
def fileBug : ScannedFile := ⟨"/r/a.ts", "a.ts", some "typescript", true⟩

/-- Storage as left by a full ingestion of that codebase: one row whose
`filePath` is the absolute path the parser was called with. -/
def rowsBug : List StoredRow := [⟨"/r/a.ts", "h1", "ca"⟩]

/-- An environment whose storage delete fails for path `/r/a.ts`. -/
def envDel : RescanEnv :=
  { hashFn := fun _ => none
    parseFn := fun _ => none
    embedOk := fun _ => true
    deleteOk := fun p => p != "/r/a.ts" }

/-- Two stored rows for two distinct paths. -/
def rowsDel : List StoredRow := [⟨"/r/a.ts", "h1", "c1"⟩, ⟨"/r/b.ts", "h2", "c2"⟩]

/-- An oversized class chunk whose content splits into three parts under a
budget of 4 tokens (one token per character). -/
def chunkW : Chunk :=
  ⟨"aa\nbb\ncc".toList, "f.ts", 1, 3, "class", "typescript", "h1", false, false⟩

/-- A stored map with two fingerprints, used to instantiate the
classification theorem. -/
def storedMapW : List (String × String × Nat) := [("a.ts", "h1", 2), ("b.ts", "h2", 1)]

/-! ## Overlap selection (getOverlapLines) -/

theorem golLoop_spec (tc : Str → Nat) (ovT : Nat) :
    ∀ (rl acc : List Str) (tokens : Nat),
      tokens = overlapSum tc acc →
      (acc ≠ [] → overlapSum tc acc ≤ ovT ∨ acc.length = 1) →
      (∃ k, golLoop tc ovT rl acc tokens = (rl.take k).reverse ++ acc) ∧
      (overlapSum tc (golLoop tc ovT rl acc tokens) ≤ ovT ∨
        (golLoop tc ovT rl acc tokens).length = 1) := by
  intro rl
  induction rl with
  | nil =>
    intro acc tokens htok hacc
    refine ⟨⟨0, by simp [golLoop]⟩, ?_⟩
    rcases List.eq_nil_or_concat acc with h | _
    · simp [golLoop, h, overlapSum]
    · simpa [golLoop] using hacc (by rintro rfl; simp_all)
  | cons line rest ih =>
    intro acc tokens htok hacc
    by_cases hbr : ovT < tokens + tc (line ++ nlSep) ∧ acc ≠ []
    · have : golLoop tc ovT (line :: rest) acc tokens = acc := by
        simp only [golLoop, if_pos hbr]
      rw [this]
      exact ⟨⟨0, by simp⟩, hacc hbr.2⟩
    · have hstep : golLoop tc ovT (line :: rest) acc tokens =
        golLoop tc ovT rest (line :: acc) (tokens + tc (line ++ nlSep)) := by
        simp only [golLoop, if_neg hbr]
      rw [hstep]
      have htok' : tokens + tc (line ++ nlSep) = overlapSum tc (line :: acc) := by
        simp [overlapSum, htok]; omega
      have hacc' : (line :: acc) ≠ [] →
          overlapSum tc (line :: acc) ≤ ovT ∨ (line :: acc).length = 1 := by
        intro _
        rcases List.eq_nil_or_concat acc with hnil | _
        · subst hnil; right; simp
        · left
          have hle : tokens + tc (line ++ nlSep) ≤ ovT := by
            rcases not_and_or.mp hbr with h | h
            · omega
            · exact absurd (by rintro rfl; simp_all) h
          omega
      obtain ⟨⟨k, hk⟩, hbud⟩ := ih (line :: acc) (tokens + tc (line ++ nlSep)) htok' hacc'
      refine ⟨⟨k + 1, ?_⟩, hbud⟩
      rw [hk]; simp

/-- C5 (amended): the overlap carried out of a just-closed bin is a suffix
of the bin's lines (whole units selected backward from the end), and its
accumulated token count never exceeds `overlapTokens` except when it
consists of a single line (the final line is always included, even when it
alone exceeds the target). -/
theorem getOverlapLines_suffix_budget (tc : Str → Nat) (lines : List Str) (ovT : Nat) :
    (∃ pre, pre ++ getOverlapLines tc lines ovT = lines) ∧
    (overlapSum tc (getOverlapLines tc lines ovT) ≤ ovT ∨
      (getOverlapLines tc lines ovT).length = 1) := by
  by_cases h : ovT = 0 ∨ lines = []
  · simp [getOverlapLines, h, overlapSum]
  · have hres : getOverlapLines tc lines ovT = golLoop tc ovT lines.reverse [] 0 := by
      simp [getOverlapLines, h]
    obtain ⟨⟨k, hk⟩, hbud⟩ :=
      golLoop_spec tc ovT lines.reverse [] 0 (by simp [overlapSum]) (by simp)
    rw [hk] at hbud
    rw [hres, hk]
    refine ⟨⟨(lines.reverse.drop k).reverse, ?_⟩, hbud⟩
    simp only [List.append_nil]
    rw [← List.reverse_append, List.take_append_drop, List.reverse_reverse]

/-- C5 (counterexample to the claim as stated): with overlap target 2 the
returned overlap is the whole final line, whose accumulated token count is
5 > 2 — the accumulated count can exceed `overlapTokens`. -/
theorem getOverlapLines_exceeds_target :
    getOverlapLines charCount ["aaaa".toList] 2 = ["aaaa".toList] ∧
    2 < overlapSum charCount (getOverlapLines charCount ["aaaa".toList] 2) := by
  constructor <;> decide

/-! ## Hashing utility (calculateFileHashes) -/

theorem batchesGo_foldl_filterMap (hashFn : String → Option String) (bs : Nat) (hbs : 0 < bs) :
    ∀ (fuel : Nat) (l : List String) (acc : List (String × String)),
      l.length ≤ fuel →
      (batchesGo bs fuel l).foldl
          (fun results batch =>
            results ++ batch.filterMap (fun p => (hashFn p).map (fun h => (p, h)))) acc =
        acc ++ l.filterMap (fun p => (hashFn p).map (fun h => (p, h))) := by
  intro fuel
  induction fuel with
  | zero =>
    intro l acc hl
    have : l = [] := List.length_eq_zero.mp (Nat.le_zero.mp hl)
    simp [this, batchesGo]
  | succ fuel ih =>
    intro l acc hl
    match l with
    | [] => simp [batchesGo]
    | a :: rest =>
      have hdrop : ((a :: rest).drop bs).length ≤ fuel := by
        rw [List.length_drop]
        simp only [List.length_cons] at hl ⊢
        omega
      simp only [batchesGo, List.foldl_cons]
      rw [ih _ _ hdrop, List.append_assoc, ← List.filterMap_append,
        List.take_append_drop]

/-- C8: `calculateFileHashes` returns an entry for exactly those input
files whose hashing succeeded; a failure hashing one file omits that file
from the result without aborting the batch or affecting the other
entries. -/
theorem calculateFileHashes_mem_iff (hashFn : String → Option String)
    (ps : List String) (c : Nat) (hc : 0 < c) (p h : String) :
    (p, h) ∈ calculateFileHashes hashFn ps c ↔ p ∈ ps ∧ hashFn p = some h := by
  unfold calculateFileHashes batches
  rw [batchesGo_foldl_filterMap hashFn c hc ps.length ps [] (le_refl _)]
  simp only [List.nil_append, List.mem_filterMap, Option.map_eq_some']
  constructor
  · rintro ⟨q, hq, a, ha, heq⟩
    have hq1 : q = p := congrArg Prod.fst heq
    have hq2 : a = h := congrArg Prod.snd heq
    subst hq1; subst hq2
    exact ⟨hq, ha⟩
  · rintro ⟨hp, hh⟩
    exact ⟨p, hp, h, hh, rfl⟩

/-- C8 witness: a concrete batch where one file fails to hash. -/
theorem calculateFileHashes_mem_witness :
    ((("a", "ha") ∈
        calculateFileHashes (fun p => if p = "bad" then none else some ("h" ++ p))
          ["a", "bad", "b"] 10) ↔
      ("a" ∈ ["a", "bad", "b"] ∧
        (fun p => if p = "bad" then none else some ("h" ++ p)) "a" = some "ha")) :=
  calculateFileHashes_mem_iff (fun p => if p = "bad" then none else some ("h" ++ p))
    ["a", "bad", "b"] 10 (by decide) "a" "ha"

/-! ## Chunking pipeline (splitOversizedChunks) -/

theorem splitChunkParts_length (c : Chunk) (n : Nat) :
    ∀ (ts : List Str) (curLine i0 : Nat),
      (splitChunkParts c n ts curLine i0).length = ts.length := by
  intro ts
  induction ts with
  | nil => intro _ _; simp [splitChunkParts]
  | cons t rest ih => intro curLine i0; simp [splitChunkParts, ih]

theorem splitChunkParts_getElem (c : Chunk) (n : Nat) :
    ∀ (ts : List Str) (curLine i0 i : Nat), i < ts.length →
      ∃ t sl, ts[i]? = some t ∧
        (splitChunkParts c n ts curLine i0)[i]? = some
          { c with
            content := t
            startLine := sl
            endLine := sl + (t.splitOn '\n').length - 1
            chunkType := if 1 < n then c.chunkType ++ "_part_" ++ toString (i0 + i + 1)
                         else c.chunkType } := by
  intro ts
  induction ts with
  | nil => intro _ _ i hi; simp at hi
  | cons t rest ih =>
    intro curLine i0 i hi
    match i with
    | 0 =>
      refine ⟨t, curLine, by simp, ?_⟩
      simp [splitChunkParts]
    | i + 1 =>
      obtain ⟨t', sl, h1, h2⟩ :=
        ih (curLine + (t.splitOn '\n').length) (i0 + 1) i (by simpa using hi)
      have harith : i0 + 1 + i + 1 = i0 + (i + 1) + 1 := by omega
      rw [harith] at h2
      exact ⟨t', sl, by simpa using h1, by simpa [splitChunkParts] using h2⟩

/-- C7: a chunk whose content fits the token budget is kept unchanged (raw
`chunkType`); an oversized chunk is split into as many parts as
`splitByTokens` returns, every part keeps the original `filePath`,
`language` and `fileHash`, and when there are at least two parts the
`i`-th part's `chunkType` is `<kind>_part_<i>` with `i` counted from 1. -/
theorem splitOversizedChunk_part_naming (tc : Str → Nat) (maxT ovT : Nat) (c : Chunk) :
    (tc c.content ≤ maxT → splitOversizedChunk tc maxT ovT c = [c]) ∧
    (maxT < tc c.content →
      (splitOversizedChunk tc maxT ovT c).length =
        (splitByTokens tc c.content maxT ovT).length ∧
      ∀ i, i < (splitByTokens tc c.content maxT ovT).length →
        (splitOversizedChunk tc maxT ovT c)[i]?.map Chunk.filePath = some c.filePath ∧
        (splitOversizedChunk tc maxT ovT c)[i]?.map Chunk.language = some c.language ∧
        (splitOversizedChunk tc maxT ovT c)[i]?.map Chunk.fileHash = some c.fileHash ∧
        (splitOversizedChunk tc maxT ovT c)[i]?.map Chunk.chunkType =
          some (if 1 < (splitByTokens tc c.content maxT ovT).length
                then c.chunkType ++ "_part_" ++ toString (i + 1)
                else c.chunkType)) := by
  constructor
  · intro h
    simp [splitOversizedChunk, h]
  · intro h
    have hne : ¬ tc c.content ≤ maxT := not_le.mpr h
    simp only [splitOversizedChunk, if_neg hne]
    refine ⟨splitChunkParts_length .., fun i hi => ?_⟩
    obtain ⟨t, sl, _, h2⟩ :=
      splitChunkParts_getElem c (splitByTokens tc c.content maxT ovT).length
        (splitByTokens tc c.content maxT ovT) c.startLine 0 i hi
    rw [h2]
    simp

/-- C7 witness: the three parts of a split class chunk are named
`class_part_1`, `class_part_2`, `class_part_3` and keep the metadata. -/
theorem splitOversizedChunk_part_witness :
    (splitOversizedChunk charCount 4 0 chunkW)[0]?.map Chunk.chunkType =
      some (if 1 < (splitByTokens charCount chunkW.content 4 0).length
            then chunkW.chunkType ++ "_part_" ++ toString (0 + 1)
            else chunkW.chunkType) :=
  (((splitOversizedChunk_part_naming charCount 4 0 chunkW).2 (by decide)).2
    0 (by decide)).2.2.2

/-! ## Splitter reassembly (splitByTokens with zero overlap) -/

theorem joinSep_append (s : Str) :
    ∀ (a b : List Str), a ≠ [] → b ≠ [] →
      joinSep s (a ++ b) = joinSep s a ++ s ++ joinSep s b := by
  intro a
  induction a with
  | nil => intro b ha _; exact absurd rfl ha
  | cons x xs ih =>
    intro b _ hb
    match xs with
    | [] =>
      match b with
      | y :: ys => simp [joinSep]
    | x2 :: rest =>
      have h := ih b (by simp) hb
      calc joinSep s ((x :: x2 :: rest) ++ b)
          = x ++ s ++ joinSep s ((x2 :: rest) ++ b) := rfl
        _ = x ++ s ++ (joinSep s (x2 :: rest) ++ s ++ joinSep s b) := by rw [h]
        _ = joinSep s (x :: x2 :: rest) ++ s ++ joinSep s b := by
            simp [joinSep, List.append_assoc]

theorem joinSep_eq_intercalate (s : Str) : ∀ l : List Str, joinSep s l = List.intercalate s l := by
  intro l
  induction l with
  | nil => simp [joinSep, List.intercalate]
  | cons x xs ih =>
    match xs with
    | [] => simp [joinSep, List.intercalate]
    | y :: ys =>
      simp only [joinSep] at ih ⊢
      rw [ih]
      simp only [List.intercalate, List.intersperse]
      simp [List.flatten]

theorem sbtLoop_chunks_append (tc : Str → Nat) (maxT ovT : Nat) :
    ∀ (ls chunks cur : List Str) (curT : Nat),
      sbtLoop tc maxT ovT ls chunks cur curT =
        chunks ++ sbtLoop tc maxT ovT ls [] cur curT := by
  intro ls
  induction ls with
  | nil =>
    intro chunks cur curT
    by_cases h : cur = [] <;> simp [sbtLoop, h]
  | cons line rest ih =>
    intro chunks cur curT
    simp only [sbtLoop]
    by_cases h1 : maxT < tc (line ++ nlSep)
    · rw [if_pos h1, if_pos h1]
      rw [ih]
      conv_rhs => rw [ih]
      by_cases h2 : cur = [] <;> simp [h2, List.append_assoc]
    · rw [if_neg h1, if_neg h1]
      by_cases h2 : maxT < curT + tc (line ++ nlSep) ∧ cur ≠ []
      · rw [if_pos h2, if_pos h2]
        rw [ih]
        conv_rhs => rw [ih]
        simp [List.append_assoc]
      · rw [if_neg h2, if_neg h2]
        exact ih chunks (cur ++ [line]) _

theorem sbtLoop_ne_nil (tc : Str → Nat) (maxT ovT : Nat) :
    ∀ (ls chunks cur : List Str) (curT : Nat), cur ≠ [] →
      sbtLoop tc maxT ovT ls chunks cur curT ≠ [] := by
  intro ls
  induction ls with
  | nil =>
    intro chunks cur curT hcur
    simp [sbtLoop, hcur]
  | cons line rest ih =>
    intro chunks cur curT hcur
    simp only [sbtLoop]
    by_cases h1 : maxT < tc (line ++ nlSep)
    · rw [if_pos h1]
      exact ih _ _ _ (by simp)
    · rw [if_neg h1]
      by_cases h2 : maxT < curT + tc (line ++ nlSep) ∧ cur ≠ []
      · rw [if_pos h2]
        exact ih _ _ _ (by simp)
      · rw [if_neg h2]
        exact ih _ _ _ (by simp [hcur])

theorem getOverlapLines_zero (tc : Str → Nat) (lines : List Str) :
    getOverlapLines tc lines 0 = [] := by
  simp [getOverlapLines]

theorem sbt_join (tc : Str → Nat) (maxT : Nat) :
    ∀ (ls cur : List Str) (curT : Nat),
      (∀ l ∈ ls, tc (l ++ nlSep) ≤ maxT) →
      joinSep nlSep (sbtLoop tc maxT 0 ls [] cur curT) = joinSep nlSep (cur ++ ls) := by
  intro ls
  induction ls with
  | nil =>
    intro cur curT _
    by_cases h : cur = [] <;> simp [sbtLoop, h, joinSep]
  | cons line rest ih =>
    intro cur curT hls
    have h1 : ¬ maxT < tc (line ++ nlSep) :=
      not_lt.mpr (hls line (by simp))
    have hrest : ∀ l ∈ rest, tc (l ++ nlSep) ≤ maxT :=
      fun l hl => hls l (by simp [hl])
    simp only [sbtLoop, if_neg h1]
    by_cases h2 : maxT < curT + tc (line ++ nlSep) ∧ cur ≠ []
    · rw [if_pos h2]
      rw [getOverlapLines_zero]
      simp only [List.nil_append]
      rw [sbtLoop_chunks_append]
      have hR : sbtLoop tc maxT 0 rest [] [line] (tc (joinSep nlSep [line])) ≠ [] :=
        sbtLoop_ne_nil tc maxT 0 rest [] [line] _ (by simp)
      rw [joinSep_append nlSep [joinSep nlSep cur] _ (by simp) hR]
      rw [ih [line] _ hrest]
      have hlr : joinSep nlSep (cur ++ line :: rest) =
          joinSep nlSep cur ++ nlSep ++ joinSep nlSep (line :: rest) :=
        joinSep_append nlSep cur (line :: rest) h2.2 (by simp)
      rw [hlr]
      simp [joinSep]
    · rw [if_neg h2]
      rw [ih (cur ++ [line]) _ hrest]
      congr 1
      simp

/-- C4 (amended): when every line of the text fits the token budget (so
the sentence/word fallbacks never run) and the overlap is zero, joining
the returned chunks with single newlines reconstructs the text exactly:
no characters are lost and none duplicated.  (As stated for arbitrary
texts the claim fails: see the counterexample, where sentence-splitting of
an oversized line drops leading terminator characters.) -/
theorem splitByTokens_reassembles_of_small_lines (tc : Str → Nat) (t : Str) (maxT : Nat)
    (h : ∀ l ∈ t.splitOn '\n', tc (l ++ nlSep) ≤ maxT) :
    joinSep nlSep (splitByTokens tc t maxT 0) = t := by
  unfold splitByTokens
  by_cases htot : tc t ≤ maxT
  · rw [if_pos htot]; rfl
  · rw [if_neg htot]
    rw [sbt_join tc maxT (t.splitOn '\n') [] 0 h]
    simp only [List.nil_append]
    rw [joinSep_eq_intercalate]
    simp only [nlSep]
    exact List.intercalate_splitOn t '\n'

/-- C4 witness: a three-line text split under a budget of 4 is
reassembled exactly by newline-joining. -/
theorem splitByTokens_reassembles_witness :
    joinSep nlSep (splitByTokens charCount ("aa\nbb\ncc".toList) 4 0) =
      "aa\nbb\ncc".toList :=
  splitByTokens_reassembles_of_small_lines charCount ("aa\nbb\ncc".toList) 4 (by decide)

/-- C4 (counterexample to the claim as stated): for the text `.ab` with
`maxTokens = 1 > 0` and zero overlap the single returned chunk is `ab` —
the character `.` appears in no returned chunk, so characters of the input
are lost and no re-joining can reconstruct it. -/
theorem splitByTokens_drops_characters :
    splitByTokens charCount (".ab".toList) 1 0 = ["ab".toList] ∧
    '.' ∈ ".ab".toList ∧
    '.' ∉ (splitByTokens charCount (".ab".toList) 1 0).flatten := by
  refine ⟨by decide, by decide, by decide⟩

/-! ## Splitter token bound (splitByTokens with zero overlap) -/

theorem getLastD_mem_of_ne_nil : ∀ (l : List Str) (d : Str), l ≠ [] → l.getLastD d ∈ l := by
  intro l
  induction l with
  | nil => intro d h; exact absurd rfl h
  | cons a rest ih =>
    intro d _
    rw [List.getLastD_cons]
    match rest with
    | [] => simp [List.getLastD]
    | b :: rest2 => exact List.mem_cons_of_mem a (ih a (by simp))

theorem splitWS_ne_nil (s : Str) : splitWS s ≠ [] := by
  unfold splitWS splitWSGo
  match h : s.dropWhile (fun c => !isWSCh c) with
  | [] => simp [h]
  | r :: rs => simp [h]

theorem sbwLoop_ne_nil (tc : Str → Nat) (maxT : Nat) :
    ∀ (ws chunks cur : List Str) (curT : Nat),
      chunks ≠ [] ∨ cur ≠ [] ∨ ws ≠ [] →
      sbwLoop tc maxT ws chunks cur curT ≠ [] := by
  intro ws
  induction ws with
  | nil =>
    intro chunks cur curT h
    by_cases hc : cur = []
    · rcases h with h | h | h
      · simpa [sbwLoop, hc] using h
      · exact absurd hc h
      · exact absurd rfl h
    · simp [sbwLoop, hc]
  | cons w rest ih =>
    intro chunks cur curT _
    simp only [sbwLoop]
    by_cases hg : maxT < curT + tc (w ++ spSep) ∧ cur ≠ []
    · rw [if_pos hg]
      exact ih _ _ _ (Or.inr (Or.inl (by simp)))
    · rw [if_neg hg]
      exact ih _ _ _ (Or.inr (Or.inl (by simp)))

theorem splitByWords_ne_nil (tc : Str → Nat) (s : Str) (maxT : Nat) :
    splitByWords tc s maxT ≠ [] :=
  sbwLoop_ne_nil tc maxT (splitWS s) [] [] 0 (Or.inr (Or.inr (splitWS_ne_nil s)))

theorem matchSentences_ne_nil (line : Str) : matchSentences line ≠ [] := by
  unfold matchSentences
  match sentScan line with
  | [] => simp
  | m :: ms => simp

theorem sbwLoop_bound (tc : Str → Nat) (maxT : Nat)
    (hT1 : ∀ a b : Str, tc (a ++ b) ≤ tc a + tc b)
    (hT2 : ∀ a b : Str, tc a ≤ tc (a ++ b)) :
    ∀ (ws chunks cur : List Str) (curT : Nat),
      (∀ c ∈ chunks, tc c ≤ maxT) →
      (cur ≠ [] → tc (joinSep spSep cur ++ spSep) ≤ curT ∧ tc (joinSep spSep cur) ≤ maxT) →
      (∀ w ∈ ws, tc (w ++ spSep) ≤ maxT) →
      ∀ c ∈ sbwLoop tc maxT ws chunks cur curT, tc c ≤ maxT := by
  intro ws
  induction ws with
  | nil =>
    intro chunks cur curT h1 h2 _ c hc
    by_cases hcur : cur = []
    · simp only [sbwLoop, if_pos hcur] at hc
      exact h1 c hc
    · simp only [sbwLoop, if_neg hcur] at hc
      rcases List.mem_append.mp hc with h | h
      · exact h1 c h
      · rw [List.mem_singleton.mp h]
        exact (h2 hcur).2
  | cons w rest ih =>
    intro chunks cur curT h1 h2 hws c hc
    have hw : tc (w ++ spSep) ≤ maxT := hws w (by simp)
    have hwrest : ∀ w' ∈ rest, tc (w' ++ spSep) ≤ maxT := fun w' h' => hws w' (by simp [h'])
    simp only [sbwLoop] at hc
    by_cases hg : maxT < curT + tc (w ++ spSep) ∧ cur ≠ []
    · rw [if_pos hg] at hc
      refine ih _ _ _ ?_ ?_ hwrest c hc
      · intro c' hc'
        rcases List.mem_append.mp hc' with h | h
        · exact h1 c' h
        · rw [List.mem_singleton.mp h]
          exact (h2 hg.2).2
      · intro _
        constructor
        · exact le_of_eq rfl
        · exact le_trans (hT2 w spSep) hw
    · rw [if_neg hg] at hc
      refine ih _ _ _ h1 ?_ hwrest c hc
      intro _
      by_cases hcur : cur = []
      · subst hcur
        exact ⟨Nat.le_add_left _ _, le_trans (le_trans (hT2 w spSep) (le_refl _)) hw⟩
      · have hle : curT + tc (w ++ spSep) ≤ maxT := by
          rcases not_and_or.mp hg with h | h
          · exact not_lt.mp h
          · exact absurd hcur h
        have hsplit : joinSep spSep (cur ++ [w]) ++ spSep =
            (joinSep spSep cur ++ spSep) ++ (w ++ spSep) := by
          rw [joinSep_append spSep cur [w] hcur (by simp)]
          simp [joinSep, List.append_assoc]
        have hb : tc (joinSep spSep (cur ++ [w]) ++ spSep) ≤ curT + tc (w ++ spSep) := by
          rw [hsplit]
          exact le_trans (hT1 _ _) (Nat.add_le_add (h2 hcur).1 (le_refl _))
        exact ⟨hb, le_trans (le_trans (hT2 _ spSep) hb) hle⟩

theorem splitByWords_bound (tc : Str → Nat) (maxT : Nat) (s : Str)
    (hT1 : ∀ a b : Str, tc (a ++ b) ≤ tc a + tc b)
    (hT2 : ∀ a b : Str, tc a ≤ tc (a ++ b))
    (hws : ∀ w ∈ splitWS s, tc (w ++ spSep) ≤ maxT) :
    ∀ c ∈ splitByWords tc s maxT, tc c ≤ maxT :=
  sbwLoop_bound tc maxT hT1 hT2 (splitWS s) [] [] 0 (by simp) (by simp) hws

theorem sllLoop_bound (tc : Str → Nat) (maxT : Nat)
    (hT1 : ∀ a b : Str, tc (a ++ b) ≤ tc a + tc b)
    (hT2 : ∀ a b : Str, tc a ≤ tc (a ++ b))
    (hT3 : ∀ a : Str, tc (trimStr a) ≤ tc a) :
    ∀ (ss chunks : List Str) (cur : Str) (curT : Nat),
      (∀ c ∈ chunks, tc c ≤ maxT) →
      (cur ≠ [] → tc cur ≤ curT ∧ tc cur ≤ maxT) →
      (∀ s ∈ ss, maxT < tc s → ∀ w ∈ splitWS s, tc (w ++ spSep) ≤ maxT) →
      ∀ c ∈ sllLoop tc maxT ss chunks cur curT, tc c ≤ maxT := by
  intro ss
  induction ss with
  | nil =>
    intro chunks cur curT h1 h2 _ c hc
    by_cases hcur : cur = []
    · simp only [sllLoop, if_pos hcur] at hc
      exact h1 c hc
    · simp only [sllLoop, if_neg hcur] at hc
      rcases List.mem_append.mp hc with h | h
      · exact h1 c h
      · rw [List.mem_singleton.mp h]
        exact le_trans (hT3 cur) (h2 hcur).2
  | cons s rest ih =>
    intro chunks cur curT h1 h2 hss c hc
    have hrest : ∀ s' ∈ rest, maxT < tc s' → ∀ w ∈ splitWS s', tc (w ++ spSep) ≤ maxT :=
      fun s' h' => hss s' (by simp [h'])
    have hpush : ∀ c' ∈ (if cur = [] then chunks else chunks ++ [trimStr cur]), tc c' ≤ maxT := by
      by_cases hcur : cur = []
      · simpa [hcur] using h1
      · intro c' hc'
        rw [if_neg hcur] at hc'
        rcases List.mem_append.mp hc' with h | h
        · exact h1 c' h
        · rw [List.mem_singleton.mp h]
          exact le_trans (hT3 cur) (h2 hcur).2
    simp only [sllLoop] at hc
    by_cases ho : maxT < tc s
    · rw [if_pos ho] at hc
      refine ih _ _ _ ?_ (by simp) hrest c hc
      intro c' hc'
      rcases List.mem_append.mp hc' with h | h
      · exact hpush c' h
      · exact splitByWords_bound tc maxT s hT1 hT2 (hss s (by simp) ho) c' h
    · rw [if_neg ho] at hc
      by_cases hg : maxT < curT + tc s ∧ cur ≠ []
      · rw [if_pos hg] at hc
        refine ih _ _ _ ?_ ?_ hrest c hc
        · intro c' hc'
          rcases List.mem_append.mp hc' with h | h
          · exact h1 c' h
          · rw [List.mem_singleton.mp h]
            exact le_trans (hT3 cur) (h2 hg.2).2
        · intro _
          exact ⟨le_refl _, not_lt.mp ho⟩
      · rw [if_neg hg] at hc
        refine ih _ _ _ h1 ?_ hrest c hc
        intro _
        by_cases hcur : cur = []
        · subst hcur
          simp only [List.nil_append]
          exact ⟨Nat.le_add_left _ _, not_lt.mp ho⟩
        · have hle : curT + tc s ≤ maxT := by
            rcases not_and_or.mp hg with h | h
            · exact not_lt.mp h
            · exact absurd hcur h
          have hb : tc (cur ++ s) ≤ curT + tc s :=
            le_trans (hT1 cur s) (Nat.add_le_add (h2 hcur).1 (le_refl _))
          exact ⟨hb, le_trans hb hle⟩

theorem sllLoop_eq_nil (tc : Str → Nat) (maxT : Nat) :
    ∀ (ss chunks : List Str) (cur : Str) (curT : Nat),
      sllLoop tc maxT ss chunks cur curT = [] →
      chunks = [] ∧ cur = [] ∧ ∀ s ∈ ss, tc s ≤ maxT ∧ s = [] := by
  intro ss
  induction ss with
  | nil =>
    intro chunks cur curT h
    by_cases hcur : cur = []
    · simp only [sllLoop, if_pos hcur] at h
      exact ⟨h, hcur, by simp⟩
    · simp only [sllLoop, if_neg hcur] at h
      exact absurd h (by simp)
  | cons s rest ih =>
    intro chunks cur curT h
    simp only [sllLoop] at h
    by_cases ho : maxT < tc s
    · rw [if_pos ho] at h
      obtain ⟨hch, _, _⟩ := ih _ _ _ h
      have : splitByWords tc s maxT = [] := by
        rcases List.append_eq_nil.mp hch with ⟨_, h2⟩
        exact h2
      exact absurd this (splitByWords_ne_nil tc s maxT)
    · rw [if_neg ho] at h
      by_cases hg : maxT < curT + tc s ∧ cur ≠ []
      · rw [if_pos hg] at h
        obtain ⟨hch, _, _⟩ := ih _ _ _ h
        exact absurd hch (by simp)
      · rw [if_neg hg] at h
        obtain ⟨hch, hcur, hr⟩ := ih _ _ _ h
        rcases List.append_eq_nil.mp hcur with ⟨hc1, hc2⟩
        refine ⟨hch, hc1, ?_⟩
        intro s' hs'
        rcases List.mem_cons.mp hs' with h' | h'
        · subst h'; exact ⟨not_lt.mp ho, hc2⟩
        · exact hr s' h'

theorem splitLongLine_bound (tc : Str → Nat) (maxT : Nat) (line : Str)
    (hT1 : ∀ a b : Str, tc (a ++ b) ≤ tc a + tc b)
    (hT2 : ∀ a b : Str, tc a ≤ tc (a ++ b))
    (hT3 : ∀ a : Str, tc (trimStr a) ≤ tc a)
    (hs : ∀ s ∈ matchSentences line, maxT < tc s → ∀ w ∈ splitWS s, tc (w ++ spSep) ≤ maxT) :
    ∀ c ∈ splitLongLine tc line maxT, tc c ≤ maxT :=
  sllLoop_bound tc maxT hT1 hT2 hT3 (matchSentences line) [] [] 0 (by simp) (by simp) hs

theorem splitLongLine_getLastD_bound (tc : Str → Nat) (maxT : Nat) (line : Str)
    (hT1 : ∀ a b : Str, tc (a ++ b) ≤ tc a + tc b)
    (hT2 : ∀ a b : Str, tc a ≤ tc (a ++ b))
    (hT3 : ∀ a : Str, tc (trimStr a) ≤ tc a)
    (hs : ∀ s ∈ matchSentences line, maxT < tc s → ∀ w ∈ splitWS s, tc (w ++ spSep) ≤ maxT) :
    tc ((splitLongLine tc line maxT).getLastD []) ≤ maxT := by
  by_cases hsc : splitLongLine tc line maxT = []
  · rw [hsc]
    obtain ⟨_, _, hall⟩ := sllLoop_eq_nil tc maxT (matchSentences line) [] [] 0 hsc
    obtain ⟨s0, hs0⟩ := List.exists_mem_of_ne_nil _ (matchSentences_ne_nil line)
    obtain ⟨hle, hnil⟩ := hall s0 hs0
    rw [hnil] at hle
    exact hle
  · exact splitLongLine_bound tc maxT line hT1 hT2 hT3 hs _
      (getLastD_mem_of_ne_nil _ [] hsc)

theorem sbtLoop_bound (tc : Str → Nat) (maxT : Nat)
    (hT1 : ∀ a b : Str, tc (a ++ b) ≤ tc a + tc b)
    (hT2 : ∀ a b : Str, tc a ≤ tc (a ++ b))
    (hT3 : ∀ a : Str, tc (trimStr a) ≤ tc a)
    (hT4 : ∀ a b : Str, tc (a ++ nlSep ++ b) ≤ tc a + tc (b ++ nlSep)) :
    ∀ (ls chunks cur : List Str) (curT : Nat),
      (∀ c ∈ chunks, tc c ≤ maxT) →
      (cur ≠ [] → tc (joinSep nlSep cur) ≤ curT ∧ tc (joinSep nlSep cur) ≤ maxT) →
      (∀ l ∈ ls, maxT < tc (l ++ nlSep) →
        ∀ s ∈ matchSentences l, maxT < tc s → ∀ w ∈ splitWS s, tc (w ++ spSep) ≤ maxT) →
      ∀ c ∈ sbtLoop tc maxT 0 ls chunks cur curT, tc c ≤ maxT := by
  intro ls
  induction ls with
  | nil =>
    intro chunks cur curT h1 h2 _ c hc
    by_cases hcur : cur = []
    · simp only [sbtLoop, if_pos hcur] at hc
      exact h1 c hc
    · simp only [sbtLoop, if_neg hcur] at hc
      rcases List.mem_append.mp hc with h | h
      · exact h1 c h
      · rw [List.mem_singleton.mp h]
        exact (h2 hcur).2
  | cons line rest ih =>
    intro chunks cur curT h1 h2 hls c hc
    have hlrest : ∀ l ∈ rest, maxT < tc (l ++ nlSep) →
        ∀ s ∈ matchSentences l, maxT < tc s → ∀ w ∈ splitWS s, tc (w ++ spSep) ≤ maxT :=
      fun l h' => hls l (by simp [h'])
    have hpush : ∀ c' ∈ (if cur = [] then chunks else chunks ++ [joinSep nlSep cur]),
        tc c' ≤ maxT := by
      by_cases hcur : cur = []
      · simpa [hcur] using h1
      · intro c' hc'
        rw [if_neg hcur] at hc'
        rcases List.mem_append.mp hc' with h | h
        · exact h1 c' h
        · rw [List.mem_singleton.mp h]
          exact (h2 hcur).2
    simp only [sbtLoop] at hc
    by_cases h1line : maxT < tc (line ++ nlSep)
    · rw [if_pos h1line] at hc
      have hsent : ∀ s ∈ matchSentences line, maxT < tc s →
          ∀ w ∈ splitWS s, tc (w ++ spSep) ≤ maxT :=
        hls line (by simp) h1line
      refine ih _ _ _ ?_ ?_ hlrest c hc
      · intro c' hc'
        rcases List.mem_append.mp hc' with h | h
        · exact hpush c' h
        · exact splitLongLine_bound tc maxT line hT1 hT2 hT3 hsent c'
            ((List.dropLast_sublist _).subset h)
      · intro _
        have hlast := splitLongLine_getLastD_bound tc maxT line hT1 hT2 hT3 hsent
        exact ⟨le_refl _, hlast⟩
    · rw [if_neg h1line] at hc
      have hline : tc line ≤ maxT :=
        le_trans (hT2 line nlSep) (not_lt.mp h1line)
      by_cases hg : maxT < curT + tc (line ++ nlSep) ∧ cur ≠ []
      · rw [if_pos hg] at hc
        rw [getOverlapLines_zero tc cur] at hc
        simp only [List.nil_append] at hc
        refine ih _ _ _ ?_ ?_ hlrest c hc
        · intro c' hc'
          rcases List.mem_append.mp hc' with h | h
          · exact h1 c' h
          · rw [List.mem_singleton.mp h]
            exact (h2 hg.2).2
        · intro _
          exact ⟨le_refl _, by simpa [joinSep] using hline⟩
      · rw [if_neg hg] at hc
        refine ih _ _ _ h1 ?_ hlrest c hc
        intro _
        by_cases hcur : cur = []
        · subst hcur
          simp only [List.nil_append]
          have : joinSep nlSep [line] = line := rfl
          rw [this]
          exact ⟨le_trans (hT2 line nlSep) (Nat.le_add_left _ _), hline⟩
        · have hle : curT + tc (line ++ nlSep) ≤ maxT := by
            rcases not_and_or.mp hg with h | h
            · exact not_lt.mp h
            · exact absurd hcur h
          have hsplit : joinSep nlSep (cur ++ [line]) =
              joinSep nlSep cur ++ nlSep ++ line := by
            rw [joinSep_append nlSep cur [line] hcur (by simp)]
            rfl
          have hb : tc (joinSep nlSep (cur ++ [line])) ≤ curT + tc (line ++ nlSep) := by
            rw [hsplit]
            exact le_trans (hT4 _ _) (Nat.add_le_add (h2 hcur).1 (le_refl _))
          exact ⟨hb, le_trans hb hle⟩

/-- C1 (amended): with zero overlap, every string returned by
`splitByTokens` has token count at most `maxTokens` whenever every atomic
unit actually used at its recursion level fits the budget (lines that
recurse to sentences and sentences that recurse to words are exempt, their
words must fit), for any token counter satisfying the four subadditivity
and monotonicity conditions.  (As stated for arbitrary `overlapTokens ≥ 0`
the claim fails: carrying an overlap into a bin can push it past the
budget, see the counterexample.) -/
theorem splitByTokens_bounded_of_zero_overlap (tc : Str → Nat) (t : Str) (maxT : Nat)
    (hT1 : ∀ a b : Str, tc (a ++ b) ≤ tc a + tc b)
    (hT2 : ∀ a b : Str, tc a ≤ tc (a ++ b))
    (hT3 : ∀ a : Str, tc (trimStr a) ≤ tc a)
    (hT4 : ∀ a b : Str, tc (a ++ nlSep ++ b) ≤ tc a + tc (b ++ nlSep))
    (hunits : ∀ l ∈ t.splitOn '\n', maxT < tc (l ++ nlSep) →
      ∀ s ∈ matchSentences l, maxT < tc s → ∀ w ∈ splitWS s, tc (w ++ spSep) ≤ maxT) :
    ∀ c ∈ splitByTokens tc t maxT 0, tc c ≤ maxT := by
  intro c hc
  unfold splitByTokens at hc
  by_cases htot : tc t ≤ maxT
  · rw [if_pos htot] at hc
    rw [List.mem_singleton.mp hc]
    exact htot
  · rw [if_neg htot] at hc
    exact sbtLoop_bound tc maxT hT1 hT2 hT3 hT4 (t.splitOn '\n') [] [] 0
      (by simp) (by simp) hunits c hc

/-- C1 witness: a three-line text under budget 4 with the one-token-per-
character counter; the returned chunk `aa` respects the budget. -/
theorem splitByTokens_bounded_witness :
    "aa".toList ∈ splitByTokens charCount ("aa\nbb\ncc".toList) 4 0 ∧
    charCount ("aa".toList) ≤ 4 :=
  ⟨by decide,
   splitByTokens_bounded_of_zero_overlap charCount ("aa\nbb\ncc".toList) 4
     (fun a b => by simp [charCount])
     (fun a b => by simp [charCount])
     (fun a => by
       simp only [charCount, trimStr, List.length_reverse]
       exact le_trans ((List.dropWhile_sublist _).length_le)
         (by simpa using (List.dropWhile_sublist (l := a) _).length_le))
     (fun a b => by simp [charCount, nlSep])
     (by decide)
     ("aa".toList) (by decide)⟩

/-- C1 (counterexample to the claim as stated): with `maxTokens = 6` and
`overlapTokens = 6` the text `aaaa\nbbbb\ncccc` — whose every line fits
the budget — yields the chunk `aaaa\nbbbb` of 9 > 6 tokens, because the
overlap carried into the bin is not re-checked against the budget. -/
theorem splitByTokens_overlap_exceeds_budget :
    ("aaaa\nbbbb".toList) ∈ splitByTokens charCount ("aaaa\nbbbb\ncccc".toList) 6 6 ∧
    6 < charCount ("aaaa\nbbbb".toList) ∧
    (∀ l ∈ ("aaaa\nbbbb\ncccc".toList).splitOn '\n', charCount (l ++ nlSep) ≤ 6) := by
  refine ⟨by decide, by decide, by decide⟩

/-! ## Incremental sync: change classification -/

theorem detectLoop_acc (hashFn : String → Option String)
    (sm : List (String × String × Nat)) :
    ∀ (files : List ScannedFile) (acc : DetectAcc),
      (detectLoop hashFn sm files acc).added =
        acc.added ++ files.filter (fun f => classify hashFn sm f = some FileClass.added) ∧
      (detectLoop hashFn sm files acc).modified =
        acc.modified ++ files.filter (fun f => classify hashFn sm f = some FileClass.modified) ∧
      (detectLoop hashFn sm files acc).unchanged =
        acc.unchanged ++ files.filter (fun f => classify hashFn sm f = some FileClass.unchanged) ∧
      (detectLoop hashFn sm files acc).currentMap =
        acc.currentMap ++
          files.filterMap (fun g => (hashFn g.path).map (fun h => (g.relativePath, h))) := by
  intro files
  induction files with
  | nil => intro acc; simp [detectLoop]
  | cons g rest ih =>
    intro acc
    simp only [detectLoop]
    cases hh : hashFn g.path with
    | none =>
      have hcl : classify hashFn sm g = none := by simp [classify, hh]
      refine ⟨?_, ?_, ?_, ?_⟩
      · rw [(ih acc).1]; simp [List.filter_cons, hcl]
      · rw [(ih acc).2.1]; simp [List.filter_cons, hcl]
      · rw [(ih acc).2.2.1]; simp [List.filter_cons, hcl]
      · rw [(ih acc).2.2.2]; simp [List.filterMap_cons, hh]
    | some h =>
      cases hl : lookupStored sm g.relativePath with
      | none =>
        have hcl : classify hashFn sm g = some FileClass.added := by
          simp [classify, hh, hl]
        simp only [hl]
        refine ⟨?_, ?_, ?_, ?_⟩
        · rw [(ih _).1]; simp [List.filter_cons, hcl, List.append_assoc]
        · rw [(ih _).2.1]; simp [List.filter_cons, hcl]
        · rw [(ih _).2.2.1]; simp [List.filter_cons, hcl]
        · rw [(ih _).2.2.2]; simp [List.filterMap_cons, hh, List.append_assoc]
      | some e =>
        by_cases hne : e.1 ≠ h
        · have hcl : classify hashFn sm g = some FileClass.modified := by
            simp [classify, hh, hl, hne]
          simp only [hl]
          rw [if_pos hne]
          refine ⟨?_, ?_, ?_, ?_⟩
          · rw [(ih _).1]; simp [List.filter_cons, hcl]
          · rw [(ih _).2.1]; simp [List.filter_cons, hcl, List.append_assoc]
          · rw [(ih _).2.2.1]; simp [List.filter_cons, hcl]
          · rw [(ih _).2.2.2]; simp [List.filterMap_cons, hh, List.append_assoc]
        · have hcl : classify hashFn sm g = some FileClass.unchanged := by
            simp [classify, hh, hl, hne]
          simp only [hl]
          rw [if_neg hne]
          refine ⟨?_, ?_, ?_, ?_⟩
          · rw [(ih _).1]; simp [List.filter_cons, hcl]
          · rw [(ih _).2.1]; simp [List.filter_cons, hcl]
          · rw [(ih _).2.2.1]; simp [List.filter_cons, hcl, List.append_assoc]
          · rw [(ih _).2.2.2]; simp [List.filterMap_cons, hh, List.append_assoc]

theorem classify_unchanged_iff (hashFn : String → Option String)
    (sm : List (String × String × Nat)) (f : ScannedFile) (h : String)
    (hh : hashFn f.path = some h) :
    classify hashFn sm f = some FileClass.unchanged ↔
      ∃ n, lookupStored sm f.relativePath = some (h, n) := by
  unfold classify
  rw [hh]
  cases hl : lookupStored sm f.relativePath with
  | none => simp
  | some e =>
    obtain ⟨sh, n⟩ := e
    by_cases hne : sh = h
    · subst hne
      simp
    · simp [hne]

theorem classify_modified_iff (hashFn : String → Option String)
    (sm : List (String × String × Nat)) (f : ScannedFile) (h : String)
    (hh : hashFn f.path = some h) :
    classify hashFn sm f = some FileClass.modified ↔
      ∃ h0 n, lookupStored sm f.relativePath = some (h0, n) ∧ h0 ≠ h := by
  unfold classify
  rw [hh]
  cases hl : lookupStored sm f.relativePath with
  | none => simp
  | some e =>
    obtain ⟨sh, n⟩ := e
    by_cases hne : sh = h
    · subst hne
      simp
    · simp only [ne_eq, hne, not_false_iff, if_true, Option.some.injEq, Prod.mk.injEq]
      constructor
      · intro _
        exact ⟨sh, n, by simp, hne⟩
      · intro _
        trivial

theorem classify_added_iff (hashFn : String → Option String)
    (sm : List (String × String × Nat)) (f : ScannedFile) (h : String)
    (hh : hashFn f.path = some h) :
    classify hashFn sm f = some FileClass.added ↔
      lookupStored sm f.relativePath = none := by
  unfold classify
  rw [hh]
  cases hl : lookupStored sm f.relativePath with
  | none => simp
  | some e =>
    obtain ⟨sh, n⟩ := e
    by_cases hne : sh = h <;> simp [hne]

theorem mem_deletedOf (sm : List (String × String × Nat)) (cm : List (String × String))
    (p : String) (hps : ∃ e ∈ sm, e.1 = p) (hno : ∀ c ∈ cm, c.1 ≠ p) :
    p ∈ deletedOf sm cm := by
  obtain ⟨e, he, hep⟩ := hps
  unfold deletedOf
  rw [List.mem_map]
  refine ⟨e, List.mem_filter.mpr ⟨he, ?_⟩, hep⟩
  rw [decide_eq_true_iff]
  intro hany
  obtain ⟨c, hc, hcp⟩ := List.any_eq_true.mp hany
  have hce := of_decide_eq_true hcp
  rw [hep] at hce
  exact hno c hc hce

/-- C3: for a scanned file whose hash was computed, the rescan classifies
it `unchanged` iff a stored fingerprint for its relative path exists and
equals the current hash, `modified` iff one exists and differs, and
`added` iff none exists; and every stored path for which no scanned file
exists is classified `deleted`. -/
theorem rescan_classification_iff (hashFn : String → Option String)
    (sm : List (String × String × Nat)) (files : List ScannedFile)
    (f : ScannedFile) (h : String) (hf : f ∈ files) (hh : hashFn f.path = some h) :
    ((f ∈ (detectChanges hashFn sm files).unchanged ↔
        ∃ n, lookupStored sm f.relativePath = some (h, n)) ∧
     (f ∈ (detectChanges hashFn sm files).modified ↔
        ∃ h0 n, lookupStored sm f.relativePath = some (h0, n) ∧ h0 ≠ h) ∧
     (f ∈ (detectChanges hashFn sm files).added ↔
        lookupStored sm f.relativePath = none) ∧
     (∀ p, (∃ e ∈ sm, e.1 = p) → (∀ g ∈ files, g.relativePath ≠ p) →
        p ∈ deletedOf sm (detectChanges hashFn sm files).currentMap)) := by
  obtain ⟨h1, h2, h3, h4⟩ := detectLoop_acc hashFn sm files ⟨[], [], [], []⟩
  have hmem : ∀ (cl : FileClass),
      (f ∈ files.filter (fun g => classify hashFn sm g = some cl) ↔
        classify hashFn sm f = some cl) := by
    intro cl
    rw [List.mem_filter]
    simp [hf]
  have hdc : detectChanges hashFn sm files =
      detectLoop hashFn sm files ⟨[], [], [], []⟩ := rfl
  refine ⟨?_, ?_, ?_, ?_⟩
  · rw [hdc, h3]
    simp only [List.nil_append]
    rw [hmem FileClass.unchanged]
    exact classify_unchanged_iff hashFn sm f h hh
  · rw [hdc, h2]
    simp only [List.nil_append]
    rw [hmem FileClass.modified]
    exact classify_modified_iff hashFn sm f h hh
  · rw [hdc, h1]
    simp only [List.nil_append]
    rw [hmem FileClass.added]
    exact classify_added_iff hashFn sm f h hh
  · intro p hps hnof
    rw [hdc]
    refine mem_deletedOf sm _ p hps ?_
    rw [h4]
    simp only [List.nil_append]
    intro c hc
    obtain ⟨g, hg, hmap⟩ := List.mem_filterMap.mp hc
    obtain ⟨hg2, _, hg4⟩ := Option.map_eq_some'.mp hmap
    rw [← hg4]
    exact hnof g hg

/-- C3 witness: a file whose stored fingerprint equals the current hash is
classified `unchanged`, and a stored path absent from the scan is
classified `deleted`. -/
theorem rescan_classification_witness :
    ((fileBug ∈ (detectChanges envBug.hashFn storedMapW [fileBug]).unchanged ↔
        ∃ n, lookupStored storedMapW fileBug.relativePath = some ("h1", n)) ∧
     (fileBug ∈ (detectChanges envBug.hashFn storedMapW [fileBug]).modified ↔
        ∃ h0 n, lookupStored storedMapW fileBug.relativePath = some (h0, n) ∧ h0 ≠ "h1") ∧
     (fileBug ∈ (detectChanges envBug.hashFn storedMapW [fileBug]).added ↔
        lookupStored storedMapW fileBug.relativePath = none) ∧
     (∀ p, (∃ e ∈ storedMapW, e.1 = p) → (∀ g ∈ [fileBug], g.relativePath ≠ p) →
        p ∈ deletedOf storedMapW (detectChanges envBug.hashFn storedMapW [fileBug]).currentMap)) :=
  rescan_classification_iff envBug.hashFn storedMapW [fileBug] fileBug "h1"
    (by decide) (by decide)

/-! ## Incremental sync: missing table, idempotence, stale deletion -/

/-- C10: when no stored table exists for the codebase, `rescanCodebase`
throws an `IngestionError` saying the codebase was not found, before the
filesystem is scanned and before any storage delete or write is issued,
leaving storage unchanged. -/
theorem rescan_missing_table_early_error (env : RescanEnv) (bs : Nat) (name : String)
    (files : List ScannedFile) :
    rescanCodebase env bs name files none =
      { outcome := RescanOut.err
          ("Failed to rescan codebase " ++ name ++ ": Codebase " ++ name ++ " not found")
        storage := none
        trace := [REvent.phase "Retrieving stored hashes"] } ∧
    REvent.scan ∉ (rescanCodebase env bs name files none).trace ∧
    (∀ p, REvent.del p ∉ (rescanCodebase env bs name files none).trace) ∧
    (∀ n, REvent.store n ∉ (rescanCodebase env bs name files none).trace) := by
  refine ⟨rfl, ?_, ?_, ?_⟩ <;> simp [rescanCodebase]

/-- C2 (failing input): a codebase of one file, already ingested (stored
rows carry the absolute `file.path` while change detection looks the file
up under its root-relative path).  The first run leaves storage exactly as
it found it, so the second run is the same computation — and it reports
`filesAdded = 1`, `filesDeleted = 1`, `filesUnchanged = 0` instead of the
required `0 / 0 / 0 / 1`: the rescan re-adds and re-deletes every file on
every run. -/
theorem rescan_second_run_not_idempotent :
    (rescanCodebase envBug 100 "cb" [fileBug] (some rowsBug)).storage = some rowsBug ∧
    (rescanCodebase envBug 100 "cb" [fileBug] (some rowsBug)).outcome =
      RescanOut.ok
        { filesScanned := 1, filesAdded := 1, filesModified := 0, filesDeleted := 1,
          filesUnchanged := 0, chunksAdded := 1, chunksDeleted := 1 } := by
  exact ⟨by decide, by decide⟩

theorem runDeletes_events (dok : String → Bool) (sm : List (String × String × Nat)) :
    ∀ (fd : List String) (st : List StoredRow) (cd : Nat),
      (runDeletes dok sm fd st cd).events =
        (fd.take ((fd.takeWhile dok).length + 1)).map REvent.del := by
  intro fd
  induction fd with
  | nil => intro st cd; simp [runDeletes]
  | cons p rest ih =>
    intro st cd
    by_cases hp : dok p
    · simp only [runDeletes, if_pos hp]
      rw [ih]
      simp [List.takeWhile_cons, hp]
    · simp only [runDeletes, if_neg hp]
      simp [List.takeWhile_cons, hp]

theorem runDeletes_ok_iff (dok : String → Bool) (sm : List (String × String × Nat)) :
    ∀ (fd : List String) (st : List StoredRow) (cd : Nat),
      ((runDeletes dok sm fd st cd).ok = true ↔ ∀ p ∈ fd, dok p = true) := by
  intro fd
  induction fd with
  | nil => intro st cd; simp [runDeletes]
  | cons p rest ih =>
    intro st cd
    by_cases hp : dok p
    · simp only [runDeletes, if_pos hp]
      rw [ih]
      simp [hp]
    · have hok : (runDeletes dok sm (p :: rest) st cd).ok = false := by
        simp [runDeletes, hp]
      rw [hok]
      constructor
      · intro hx
        exact absurd hx (by simp)
      · intro hall
        exact absurd (hall p (by simp)) hp

/-- C6 (amended): stale chunks are deleted with one storage delete per
modified/deleted path, issued individually and in order; a delete failure
is not retried, but it is not swallowed either: the loop stops at the
first failing path (later paths get no delete) and the whole rescan aborts
with an `IngestionError` (fail-fast, not fail-and-continue). -/
theorem runDeletes_per_path_fail_fast (env : RescanEnv) (bs : Nat) (name : String)
    (files : List ScannedFile) (rows : List StoredRow) :
    (let sm := buildStoredMap rows
     let d := detectChanges env.hashFn sm (files.filter (fun f => f.supported))
     let fd := d.modified.map (fun f => f.relativePath) ++ deletedOf sm d.currentMap
     (runDeletes env.deleteOk sm fd rows 0).events =
        (fd.take ((fd.takeWhile env.deleteOk).length + 1)).map REvent.del ∧
     ((runDeletes env.deleteOk sm fd rows 0).ok = true ↔ ∀ p ∈ fd, env.deleteOk p = true) ∧
     ((runDeletes env.deleteOk sm fd rows 0).ok = false →
        (rescanCodebase env bs name files (some rows)).outcome =
          RescanOut.err ("Failed to rescan codebase " ++ name ++ ": delete failed"))) := by
  refine ⟨runDeletes_events _ _ _ _ _, runDeletes_ok_iff _ _ _ _ _, ?_⟩
  intro hfail
  simp only [rescanCodebase, hfail]
  simp

/-- C6 witness: in the failing-delete scenario the delete loop issued
exactly one (attempted) delete and reports failure. -/
theorem runDeletes_per_path_witness :
    (let sm := buildStoredMap rowsDel
     let d := detectChanges envDel.hashFn sm (([] : List ScannedFile).filter
       (fun f => f.supported))
     let fd := d.modified.map (fun f => f.relativePath) ++ deletedOf sm d.currentMap
     (runDeletes envDel.deleteOk sm fd rowsDel 0).events =
        (fd.take ((fd.takeWhile envDel.deleteOk).length + 1)).map REvent.del ∧
     ((runDeletes envDel.deleteOk sm fd rowsDel 0).ok = true ↔
        ∀ p ∈ fd, envDel.deleteOk p = true) ∧
     ((runDeletes envDel.deleteOk sm fd rowsDel 0).ok = false →
        (rescanCodebase envDel 100 "cb" [] (some rowsDel)).outcome =
          RescanOut.err ("Failed to rescan codebase " ++ "cb" ++ ": delete failed"))) :=
  runDeletes_per_path_fail_fast envDel 100 "cb" [] rowsDel

/-- C6 (counterexample to the claim as stated): with two stale paths and a
delete that fails on the first, the rescan aborts with an error, the
second path is never deleted (its rows survive), and storage keeps both
paths — a failure does block the remaining paths and does abort the
rescan. -/
theorem rescan_delete_failure_aborts :
    (rescanCodebase envDel 100 "cb" [] (some rowsDel)).outcome =
      RescanOut.err "Failed to rescan codebase cb: delete failed" ∧
    REvent.del "/r/a.ts" ∈ (rescanCodebase envDel 100 "cb" [] (some rowsDel)).trace ∧
    REvent.del "/r/b.ts" ∉ (rescanCodebase envDel 100 "cb" [] (some rowsDel)).trace ∧
    (rescanCodebase envDel 100 "cb" [] (some rowsDel)).storage = some rowsDel := by
  exact ⟨by decide, by decide, by decide, by decide⟩

/-! ## Incremental sync: progress phases -/

theorem processLoop_events (env : RescanEnv) :
    ∀ (l : List ScannedFile),
      (processLoop env l).2 = l.map (fun _ => REvent.phase "Processing files") := by
  intro l
  induction l with
  | nil => simp [processLoop]
  | cons f rest ih => simp [processLoop, ih]

theorem embedBatches_events (ek : String → Bool) (bs : Nat)
    (chunks : List (String × String × String)) :
    (embedBatches ek bs chunks).2 =
      (batches bs chunks).map (fun _ => REvent.phase "Generating embeddings") := by
  unfold embedBatches
  induction batches bs chunks with
  | nil => simp
  | cons b bl ih => simp [ih]

theorem store_foldl_events :
    ∀ (bl : List (List (String × String × String))) (stAcc : List StoredRow)
      (evs : List REvent),
      (bl.foldl
          (fun acc b => (acc.1 ++ b.map toStoredRow,
            acc.2 ++ [REvent.store b.length, REvent.phase "Storing chunks"]))
          (stAcc, evs)).2 =
        evs ++ bl.flatMap
          (fun b => [REvent.store b.length, REvent.phase "Storing chunks"]) := by
  intro bl
  induction bl with
  | nil => intro stAcc evs; simp
  | cons b rest ih =>
    intro stAcc evs
    simp only [List.foldl_cons, List.flatMap_cons]
    rw [ih]
    simp [List.append_assoc]

theorem phaseOfEvent_phase (s : String) : phaseOfEvent (REvent.phase s) = some s := rfl

theorem phaseOfEvent_scan : phaseOfEvent REvent.scan = none := rfl

theorem phaseOfEvent_del (p : String) : phaseOfEvent (REvent.del p) = none := rfl

theorem phaseOfEvent_store (n : Nat) : phaseOfEvent (REvent.store n) = none := rfl

theorem filterMap_phase_del (ps : List String) :
    (ps.map REvent.del).filterMap phaseOfEvent = [] := by
  induction ps with
  | nil => simp
  | cons p rest ih => simp [phaseOfEvent, ih]

theorem filterMap_phase_const {α : Type} (l : List α) (s : String) :
    (l.map (fun _ => REvent.phase s)).filterMap phaseOfEvent = List.replicate l.length s := by
  induction l with
  | nil => simp
  | cons x rest ih => simp [phaseOfEvent, ih, List.replicate_succ]

theorem filterMap_phase_store (bl : List (List (String × String × String))) :
    ((bl.flatMap (fun b => [REvent.store b.length, REvent.phase "Storing chunks"])).filterMap
        phaseOfEvent) = List.replicate bl.length "Storing chunks" := by
  induction bl with
  | nil => simp
  | cons b rest ih => simp [phaseOfEvent, ih, List.replicate_succ]

/-- C9 (amended): within one rescan on an existing table whose deletes all
succeed, the progress phases reported are, in order: `Retrieving stored
hashes`, `Scanning filesystem`, `Detecting changes` (once plus once per
supported file), then `Processing files`, `Generating embeddings` and
`Storing chunks` (each some number of times).  No `deleting stale chunks`
phase is ever reported, and the actual strings differ from the ones the
claim lists. -/
theorem rescan_phase_order (env : RescanEnv) (bs : Nat) (name : String)
    (files : List ScannedFile) (rows : List StoredRow)
    (hdel : ∀ p, env.deleteOk p = true) :
    ∃ nP nG nS,
      phasesOf (rescanCodebase env bs name files (some rows)) =
        "Retrieving stored hashes" :: "Scanning filesystem" ::
          (List.replicate (1 + (files.filter (fun f => f.supported)).length)
              "Detecting changes" ++
           List.replicate nP "Processing files" ++
           List.replicate nG "Generating embeddings" ++
           List.replicate nS "Storing chunks") := by
  have hok : ∀ (sm : List (String × String × Nat)) (fd : List String)
      (st : List StoredRow) (cd : Nat),
      (runDeletes env.deleteOk sm fd st cd).ok = true :=
    fun sm fd st cd => (runDeletes_ok_iff env.deleteOk sm fd st cd).mpr fun p _ => hdel p
  simp only [show (1 : Nat) + (files.filter (fun f => f.supported)).length =
      (files.filter (fun f => f.supported)).length + 1 from Nat.add_comm 1 _,
    List.replicate_succ]
  unfold rescanCodebase
  simp only [hok, if_true]
  split
  · refine ⟨((detectChanges env.hashFn (buildStoredMap rows)
        (List.filter (fun f => f.supported) files)).added ++
        (detectChanges env.hashFn (buildStoredMap rows)
          (List.filter (fun f => f.supported) files)).modified).length, 0, 0, ?_⟩
    rw [runDeletes_events, processLoop_events]
    simp only [phasesOf, List.filterMap_append, ← List.map_take, filterMap_phase_del]
    simp [phaseOfEvent_phase, phaseOfEvent_scan, filterMap_phase_const,
      List.append_assoc]
  · unfold storeBatches
    split
    · refine ⟨((detectChanges env.hashFn (buildStoredMap rows)
          (List.filter (fun f => f.supported) files)).added ++
          (detectChanges env.hashFn (buildStoredMap rows)
            (List.filter (fun f => f.supported) files)).modified).length,
        (batches bs (processLoop env
          ((detectChanges env.hashFn (buildStoredMap rows)
            (List.filter (fun f => f.supported) files)).added ++
            (detectChanges env.hashFn (buildStoredMap rows)
              (List.filter (fun f => f.supported) files)).modified)).1).length, 0, ?_⟩
      rw [runDeletes_events, processLoop_events, embedBatches_events]
      simp only [phasesOf, List.filterMap_append, ← List.map_take, filterMap_phase_del]
      simp [phaseOfEvent_phase, phaseOfEvent_scan, filterMap_phase_const,
        List.append_assoc]
    · refine ⟨((detectChanges env.hashFn (buildStoredMap rows)
          (List.filter (fun f => f.supported) files)).added ++
          (detectChanges env.hashFn (buildStoredMap rows)
            (List.filter (fun f => f.supported) files)).modified).length,
        (batches bs (processLoop env
          ((detectChanges env.hashFn (buildStoredMap rows)
            (List.filter (fun f => f.supported) files)).added ++
            (detectChanges env.hashFn (buildStoredMap rows)
              (List.filter (fun f => f.supported) files)).modified)).1).length,
        (batches bs (embedBatches env.embedOk bs (processLoop env
          ((detectChanges env.hashFn (buildStoredMap rows)
            (List.filter (fun f => f.supported) files)).added ++
            (detectChanges env.hashFn (buildStoredMap rows)
              (List.filter (fun f => f.supported) files)).modified)).1).1).length, ?_⟩
      rw [runDeletes_events, processLoop_events, embedBatches_events,
        store_foldl_events]
      simp only [phasesOf, List.filterMap_append, ← List.map_take, filterMap_phase_del]
      simp [phaseOfEvent_phase, phaseOfEvent_scan, filterMap_phase_const,
        filterMap_phase_store, List.append_assoc]

/-- C9 (counterexample to the claim as stated): a rescan that deletes a
stale file's chunks reports no `deleting stale chunks` phase at all, and
even the first claimed phase string `retrieving stored hashes` never
occurs (the code reports `Retrieving stored hashes`). -/
theorem rescan_no_delete_phase_reported :
    REvent.del "/r/a.ts" ∈ (rescanCodebase envBug 100 "cb" [] (some rowsBug)).trace ∧
    "deleting stale chunks" ∉ phasesOf (rescanCodebase envBug 100 "cb" [] (some rowsBug)) ∧
    "retrieving stored hashes" ∉ phasesOf (rescanCodebase envBug 100 "cb" [] (some rowsBug)) := by
  exact ⟨by decide, by decide, by decide⟩

/-- C9 witness: the phase order theorem applied to a one-file codebase. -/
theorem rescan_phase_order_witness :
    ∃ nP nG nS,
      phasesOf (rescanCodebase envBug 2 "cb" [fileBug] (some rowsBug)) =
        "Retrieving stored hashes" :: "Scanning filesystem" ::
          (List.replicate (1 + ([fileBug].filter (fun f => f.supported)).length)
              "Detecting changes" ++
           List.replicate nP "Processing files" ++
           List.replicate nG "Generating embeddings" ++
           List.replicate nS "Storing chunks") :=
  rescan_phase_order envBug 2 "cb" [fileBug] rowsBug (fun _ => rfl)
